import Mathlib

/-!
Verification development for the floating-point / π-estimation core of the
repository (src/unnamed/part_000 and src/floatingpoint/FloatingPointNumber.java).

The Java code computes with `java.math.BigDecimal` (arbitrary-precision decimal),
`float` (IEEE-754 binary32) and `double` (IEEE-754 binary64).  We embed:

* `BigDec m k` — a decimal value `m × 10^k` (a `BigDecimal` with unscaled value
  `m` and scale `-k`).  `BigDecimal.add`, `multiply` and `pow` (without a
  `MathContext`) are exact; `divide` and `pow` with a `MathContext(p, mode)`
  round the exact result to `p` significant digits under `mode`.
* `FP` — an IEEE-754 binary floating-point datum: `nan`, signed infinity, or a
  finite value `m × 2^e` (kept with odd `m`, so equality of representations is
  equality of values).  Every arithmetic operation takes the format
  (binary32 or binary64) and rounds the exact rational result to nearest,
  ties to even, as Java's strict float/double arithmetic does.

All computations are over `ℤ`/`ℕ` so that concrete runs reduce in the kernel;
`BigDec.toRat` maps into `ℚ` for stating exact-value properties.
-/

set_option maxRecDepth 2000
set_option exponentiation.threshold 2000

/-- Number of decimal digits of `n` (for `n ≥ 1`); fuel-based (four digits per
recursion step) so that it reduces cheaply in the kernel.  `ndigitsAux fuel n`
is correct whenever `n < 10^fuel`. -/
def ndigitsAux : ℕ → ℕ → ℕ
  | 0, _ => 0
  | fuel+1, n =>
    if n < 10 then 1 else if n < 100 then 2 else if n < 1000 then 3
    else if n < 10000 then 4 else ndigitsAux fuel (n / 10000) + 4

def ndigits (n : ℕ) : ℕ := ndigitsAux n n

/-- Number of binary digits of `n` (for `n ≥ 1`); fuel-based (eight bits per
recursion step). -/
def nbitsAux : ℕ → ℕ → ℕ
  | 0, _ => 0
  | fuel+1, n =>
    if n < 2 then 1 else if n < 4 then 2 else if n < 8 then 3 else if n < 16 then 4
    else if n < 32 then 5 else if n < 64 then 6 else if n < 128 then 7
    else if n < 256 then 8 else nbitsAux fuel (n / 256) + 8

def nbits (n : ℕ) : ℕ := nbitsAux n n

/-- The two `java.math.RoundingMode` values used by the source:
`HALF_UP` (ties away from zero) and `HALF_EVEN` (ties to even). -/
inductive RMode where
  | halfUp
  | halfEven
deriving DecidableEq

/-- Round the nonnegative rational `N / D` (with `D > 0`) to an integer under
the given rounding mode.  Callers always pass `N ≥ 0`. -/
def rndInt (mode : RMode) (N : ℤ) (D : ℕ) : ℤ :=
  let q := N / D
  let r := N % D
  match mode with
  | .halfUp => if (D : ℤ) ≤ 2 * r then q + 1 else q
  | .halfEven =>
      if (D : ℤ) < 2 * r then q + 1
      else if 2 * r < (D : ℤ) then q
      else if q % 2 = 0 then q else q + 1

/-- A `java.math.BigDecimal` value: `m × 10^k` (unscaled value `m`, scale `-k`). -/
structure BigDec where
  m : ℤ
  k : ℤ
deriving DecidableEq

/-- The exact rational value of a `BigDec`. -/
def BigDec.toRat (a : BigDec) : ℚ := (a.m : ℚ) * 10 ^ a.k

/-- Numeric (value-level) equality of two `BigDec`s, `BigDecimal.compareTo == 0`,
decided by integer cross-multiplication. -/
def BigDec.veq (a b : BigDec) : Bool :=
  let k := min a.k b.k
  a.m * ((10 ^ (a.k - k).toNat : ℕ) : ℤ) == b.m * ((10 ^ (b.k - k).toNat : ℕ) : ℤ)

/-- Whether `10^e ≤ a / d`, for naturals `a, d ≥ 1`. -/
def le10pow (a d : ℕ) (e : ℤ) : Bool :=
  if 0 ≤ e then d * 10 ^ e.toNat ≤ a else d ≤ a * 10 ^ (-e).toNat

/-- The floor of `log10 (a / d)` for naturals `a, d ≥ 1`. -/
def flog10 (a d : ℕ) : ℤ :=
  let L : ℤ := (ndigits a : ℤ) - (ndigits d : ℤ)
  if le10pow a d L then L else L - 1

/-- Round the rational `(n / d) × 10^t` (with `d > 0`) to `p ≥ 1` significant
digits under `mode`: the semantics of a `BigDecimal` operation performed with
`new MathContext(p, mode)`. -/
def roundRatSig (p : ℕ) (mode : RMode) (n : ℤ) (d : ℕ) (t : ℤ) : BigDec :=
  if n = 0 then ⟨0, 0⟩ else
  let s : ℤ := if n < 0 then -1 else 1
  let a := n.natAbs
  let E := flog10 a d
  let sh : ℤ := (p : ℤ) - 1 - E
  let N : ℤ := ((a * 10 ^ sh.toNat : ℕ) : ℤ)
  let D : ℕ := d * 10 ^ (-sh).toNat
  ⟨s * rndInt mode N D, E - (p : ℤ) + 1 + t⟩

/-- Exact `BigDecimal.add`: align scales, add unscaled values. -/
def bdAdd (a b : BigDec) : BigDec :=
  if a.k ≤ b.k then ⟨a.m + b.m * ((10 ^ (b.k - a.k).toNat : ℕ) : ℤ), a.k⟩
  else ⟨a.m * ((10 ^ (a.k - b.k).toNat : ℕ) : ℤ) + b.m, b.k⟩

/-- Exact `BigDecimal.multiply`. -/
def bdMul (a b : BigDec) : BigDec := ⟨a.m * b.m, a.k + b.k⟩

/-- Number of factors `q` in `n`, fuel-based. -/
def stripFacAux (q : ℕ) : ℕ → ℕ → ℕ
  | 0, _ => 0
  | fuel+1, n => if n % q = 0 ∧ 1 < n then stripFacAux q fuel (n / q) + 1 else 0

/-- The Java-visible error conditions of the embedded code.  The first three
are the exceptions the source can actually throw; the last four are the error
taxonomy named by the specification (never produced by the code, but needed to
state the specification's claims). -/
inductive JavaError where
  | stringIndexOutOfBounds
  | numberFormat
  | arithmeticException
  | malformedBitString
  | unsupportedSubnormal
  | invalidStepCount
  | invalidPrecision
deriving DecidableEq

/-- `BigDecimal.divide(b, new MathContext(p, mode))`.  Division by zero throws
`ArithmeticException`; `p = 0` means `UNLIMITED` precision, which throws
`ArithmeticException` when the exact quotient has no terminating decimal
expansion, and otherwise returns the exact quotient. -/
def bdDivide (p : ℕ) (mode : RMode) (a b : BigDec) : Except JavaError BigDec :=
  if b.m = 0 then .error .arithmeticException
  else if p = 0 then
    let g := Int.gcd a.m b.m
    let d := b.m.natAbs / g
    let a2 := stripFacAux 2 d d
    let a5 := stripFacAux 5 d d
    if d = 2 ^ a2 * 5 ^ a5 then
      let w := max a2 a5
      .ok ⟨(a.m / g) * (10 ^ w / (d : ℤ)) * (if b.m < 0 then -1 else 1), a.k - b.k - w⟩
    else .error .arithmeticException
  else
    .ok (roundRatSig p mode ((if (a.m < 0) = (b.m < 0) then 1 else -1) * a.m.natAbs)
          b.m.natAbs (a.k - b.k))

/-- Value rounding of a single `BigDec` to `p` significant digits (the effect
of `BigDecimal.round(new MathContext(p, mode))` on the numeric value). -/
def roundDecSig (p : ℕ) (mode : RMode) (a : BigDec) : BigDec :=
  roundRatSig p mode a.m 1 a.k

/-- `new BigDecimal("0.5").pow(j)`: the exact decimal `5^j × 10^(-j)`. -/
def bdHalfPow (j : ℕ) : BigDec := ⟨5 ^ j, -(j : ℤ)⟩

/-- `Long.parseLong` applied to a one-character string (ASCII): the digit value
of `c`, or a `NumberFormatException` for a non-digit. -/
def parseDigit (c : Char) : Option ℕ :=
  if c.isDigit then some (c.toNat - 48) else none

/-- The mantissa-accumulation loop of `exactDecimal` (part_000 lines 12-16):
for each character of `fraction`, `mantissa = mantissa.add(
BigDecimal.valueOf(Long.parseLong(fraction.substring(i,i+1))).multiply(half.pow(i+1)))`. -/
def mantissaLoop : List Char → ℕ → BigDec → Except JavaError BigDec
  | [], _, acc => .ok acc
  | c :: cs, i, acc =>
    match parseDigit c with
    | none => .error .numberFormat
    | some d => mantissaLoop cs (i + 1) (bdAdd acc (bdMul ⟨(d : ℤ), 0⟩ (bdHalfPow (i + 1))))

def parseBinDigit (c : Char) : Option ℕ :=
  if c = '0' then some 0 else if c = '1' then some 1 else none

def parseBinLoop : List Char → ℕ → Except JavaError ℕ
  | [], acc => .ok acc
  | c :: cs, acc =>
    match parseBinDigit c with
    | none => .error .numberFormat
    | some d => parseBinLoop cs (2 * acc + d)

/-- Apply the parsed sign to the digits value (propagating a parse error). -/
def intOfParsed (sign : Bool) (x : Except JavaError ℕ) : Except JavaError ℤ :=
  match x with
  | .error e => .error e
  | .ok v => .ok (cond sign (-(v : ℤ)) (v : ℤ))

/-- `Integer.valueOf(s, 2)` on an ASCII string: an optional leading sign
followed by at least one binary digit. -/
def parseIntBin (l : List Char) : Except JavaError ℤ :=
  match l with
  | [] => .error .numberFormat
  | c :: cs =>
    if c = '-' then
      if cs = [] then .error .numberFormat else intOfParsed true (parseBinLoop cs 0)
    else if c = '+' then
      if cs = [] then .error .numberFormat else intOfParsed false (parseBinLoop cs 0)
    else intOfParsed false (parseBinLoop (c :: cs) 0)

/-- `BigDecimal.valueOf(2).pow(e, new MathContext(50, RoundingMode.HALF_EVEN))`:
the value `2^e` rounded to 50 significant digits, ties to even.  (For the
exponents reachable here the X3.274 algorithm used by `BigDecimal.pow` computes
its intermediates exactly, so the result is the correctly rounded power.) -/
def bdPow2 (e : ℤ) : BigDec :=
  if 0 ≤ e then roundRatSig 50 .halfEven (2 ^ e.toNat) 1 0
  else roundRatSig 50 .halfEven 1 (2 ^ (-e).toNat) 0

/-- `exactDecimal` (part_000 lines 9-21, identical to `binaryToFloat` in
FloatingPointNumber.java): decompose the input string into mantissa bits
(characters from position 9 on), exponent field (characters 1-8, parsed base 2,
minus the bias 127) and a sign taken from `fraction.charAt(0)` — that is, from
the character at position 9, the first mantissa bit, not from the sign bit at
position 0.  `substring(9)` throws `StringIndexOutOfBoundsException` for strings
shorter than 9 characters, and `fraction.charAt(0)` throws it for length-9
strings; no other validation exists.  Unicode (non-ASCII) digit characters,
which `Long.parseLong` would accept, are not modelled. -/
def exactDecimal (s : List Char) : Except JavaError BigDec :=
  if s.length < 9 then .error .stringIndexOutOfBounds
  else
    let fraction := s.drop 9
    match mantissaLoop fraction 0 ⟨1, 0⟩ with
    | .error e => .error e
    | .ok mantissa =>
      match parseIntBin ((s.drop 1).take 8) with
      | .error e => .error e
      | .ok expVal =>
        match fraction with
        | [] => .error .stringIndexOutOfBounds
        | c :: _ =>
          let sign : ℤ := if c = '0' then 1 else -1
          .ok (bdMul (bdMul mantissa (bdPow2 (expVal - 127))) ⟨sign, 0⟩)

/-- The loop body of `arbitrary_precision_pi` (part_000 lines 49-52): for each
`i`, `x = (valueOf(i).add(half)).multiply(stepSize)` (exact `add`, `multiply`)
and `sum = sum.add(four.divide(ONE.add(x.pow(2)), mc))` — the square and the
two `add`s are exact, the `divide` is rounded by `MathContext(precision, HALF_UP)`. -/
def api_body (precision : ℕ) (stepSize : BigDec) (acc : Except JavaError BigDec) (i : ℕ) :
    Except JavaError BigDec :=
  match acc with
  | .error e => .error e
  | .ok sum =>
    let x := bdMul (bdAdd ⟨(i : ℤ), 0⟩ ⟨5, -1⟩) stepSize
    match bdDivide precision .halfUp ⟨4, 0⟩ (bdAdd ⟨1, 0⟩ (bdMul x x)) with
    | .error e => .error e
    | .ok term => .ok (bdAdd sum term)

/-- `arbitrary_precision_pi` (part_000 lines 43-54):
`stepSize = ONE.divide(valueOf(numSteps), mc)` (rounded by
`MathContext(precision, HALF_UP)`; a zero `numSteps` makes it throw
`ArithmeticException`), the accumulation loop, and the exact final
`sum.multiply(stepSize)`. -/
def arbitrary_precision_pi (numSteps : ℕ) (precision : ℕ) : Except JavaError BigDec :=
  match bdDivide precision .halfUp ⟨1, 0⟩ ⟨(numSteps : ℤ), 0⟩ with
  | .error e => .error e
  | .ok stepSize =>
    match (List.range numSteps).foldl (api_body precision stepSize) (.ok ⟨0, 0⟩) with
    | .error e => .error e
    | .ok sum => .ok (bdMul sum stepSize)

/-- An IEEE-754 binary floating-point format: `prec` significand bits
(including the implicit bit) and maximum exponent `emax`. -/
structure FpFmt where
  prec : ℕ
  emax : ℤ

/-- Java `float`: IEEE-754 binary32. -/
def b32 : FpFmt := ⟨24, 127⟩

/-- Java `double`: IEEE-754 binary64. -/
def b64 : FpFmt := ⟨53, 1023⟩

/-- An IEEE-754 binary floating-point datum: NaN, a signed infinity, or a
finite value `m × 2^e`.  `FP.feq` below decides equality of the denoted
values.  A negative zero never arises in the computations embedded here, so
zero is represented only as `num 0 0`. -/
inductive FP where
  | nan
  | inf (neg : Bool)
  | num (m : ℤ) (e : ℤ)
deriving DecidableEq

/-- Value-level equality of two `FP` data (with NaN equal to NaN, so that it
refines `=` on representations). -/
def FP.feq : FP → FP → Bool
  | .nan, .nan => true
  | .inf s, .inf t => s == t
  | .num m1 e1, .num m2 e2 =>
      let e := min e1 e2
      m1 * ((2 ^ (e1 - e).toNat : ℕ) : ℤ) == m2 * ((2 ^ (e2 - e).toNat : ℕ) : ℤ)
  | _, _ => false

/-- Whether `2^t ≤ a / d` for `a, d ≥ 1`. -/
def le2pow (a d : ℕ) (t : ℤ) : Bool :=
  if 0 ≤ t then d * 2 ^ t.toNat ≤ a else d ≤ a * 2 ^ (-t).toNat

/-- The floor of `log2 (a / d)` for naturals `a, d ≥ 1`. -/
def flog2 (a d : ℕ) : ℤ :=
  let L : ℤ := (nbits a : ℤ) - (nbits d : ℤ)
  if le2pow a d L then L else L - 1

/-- Round the signed rational `n / d` (with `d > 0`) to the format `fmt` under
round-to-nearest, ties-to-even: the IEEE-754 rounding Java applies to every
strict `float`/`double` operation.  Handles gradual underflow (the quantum
exponent is clamped at `emin - prec + 1 = 2 - emax - prec`) and overflow to
infinity (a value that rounds, with unbounded exponent range, above the largest
finite value becomes an infinity). -/
def roundFPRat (fmt : FpFmt) (n : ℤ) (d : ℕ) : FP :=
  if n = 0 then .num 0 0 else
  let sneg := n < 0
  let a := n.natAbs
  let E := flog2 a d
  let qe : ℤ := max (2 - fmt.emax - (fmt.prec : ℤ)) (E - (fmt.prec : ℤ) + 1)
  let N : ℤ := ((a * 2 ^ (-qe).toNat : ℕ) : ℤ)
  let D : ℕ := d * 2 ^ qe.toNat
  let q := rndInt .halfEven N D
  if q = 0 then .num 0 0
  else if ((2 ^ fmt.prec - 1 : ℕ) * 2 ^ (fmt.emax - (fmt.prec : ℤ) + 1 - qe).toNat : ℕ) < q then .inf sneg
  else .num (if sneg then -q else q) qe

/-- Round the dyadic value `m × 2^e` to the format `fmt`. -/
def dyadic (fmt : FpFmt) (m : ℤ) (e : ℤ) : FP :=
  if 0 ≤ e then roundFPRat fmt (m * ((2 ^ e.toNat : ℕ) : ℤ)) 1
  else roundFPRat fmt m (2 ^ (-e).toNat)

/-- IEEE/Java floating-point addition in format `fmt`. -/
def FP.add (fmt : FpFmt) : FP → FP → FP
  | .nan, _ => .nan
  | _, .nan => .nan
  | .inf s, .inf t => if s = t then .inf s else .nan
  | .inf s, .num _ _ => .inf s
  | .num _ _, .inf t => .inf t
  | .num m1 e1, .num m2 e2 =>
      let e := min e1 e2
      dyadic fmt (m1 * ((2 ^ (e1 - e).toNat : ℕ) : ℤ) + m2 * ((2 ^ (e2 - e).toNat : ℕ) : ℤ)) e

/-- Sign of an `FP` operand for the sign rules of `mul`/`div` (true = negative). -/
def FP.sneg : FP → Bool
  | .nan => false
  | .inf s => s
  | .num m _ => m < 0

/-- IEEE/Java floating-point multiplication in format `fmt`. -/
def FP.mul (fmt : FpFmt) : FP → FP → FP
  | .nan, _ => .nan
  | _, .nan => .nan
  | .inf s, y => if y = .num 0 0 then .nan else .inf (s ≠ FP.sneg y)
  | x, .inf t => if x = .num 0 0 then .nan else .inf (FP.sneg x ≠ t)
  | .num m1 e1, .num m2 e2 => dyadic fmt (m1 * m2) (e1 + e2)

/-- IEEE/Java floating-point division in format `fmt`. -/
def FP.div (fmt : FpFmt) : FP → FP → FP
  | .nan, _ => .nan
  | _, .nan => .nan
  | .inf _, .inf _ => .nan
  | .inf s, y => .inf (s ≠ FP.sneg y)
  | .num _ _, .inf _ => .num 0 0
  | .num m1 e1, .num m2 e2 =>
      if m2 = 0 then (if m1 = 0 then .nan else .inf ((m1 < 0) ≠ (m2 < 0)))
      else
        let s : ℤ := if (m1 < 0) = (m2 < 0) then 1 else -1
        roundFPRat fmt (s * ((m1.natAbs * 2 ^ (e1 - e2).toNat : ℕ) : ℤ))
          (m2.natAbs * 2 ^ (e2 - e1).toNat)

/-- Java's implicit `int` → `float` conversion (round to nearest, ties to even). -/
def i2f (i : ℕ) : FP := dyadic b32 (i : ℤ) 0

/-- Java's explicit narrowing `(float)` of a `double` value: finite values are
rounded to binary32 (possibly overflowing to infinity); NaN and infinities are
preserved.  The widening `float` → `double` conversion is exact and therefore
the identity on this value representation. -/
def narrow32 : FP → FP
  | .nan => .nan
  | .inf s => .inf s
  | .num m e => dyadic b32 m e

/-- The step width `1.0f/numSteps` of `float_pi`: a float division whose
divisor is `numSteps` converted from `int` to `float`. -/
def float_pi_step (numSteps : ℕ) : FP := FP.div b32 (.num 1 0) (i2f numSteps)

/-- The loop body of `float_pi` (part_000 lines 26-29).
`x = (i+0.5f)*stepSize` is computed in float; but the term
`4.0f/(1.0f+pow(x,2))` is computed in `double`, because `Math.pow` returns
`double` and the operands are widened: `pow(x,2)` is the exact double square
of `x` (a 24-bit value squared needs at most 48 < 53 significand bits, and
`Math.pow` returns the representable exact result), `1.0f + ·` and `4.0f / ·`
are double operations, and `sum += term` adds the double term to the widened
float `sum` (widening is the identity on this value representation) and
narrows the double result back to `float`. -/
def float_pi_body (stepSize : FP) (sum : FP) (i : ℕ) : FP :=
  let x := FP.mul b32 (FP.add b32 (i2f i) (.num 1 (-1))) stepSize
  narrow32 (FP.add b64 sum (FP.div b64 (.num 1 2) (FP.add b64 (.num 1 0) (FP.mul b64 x x))))

/-- `float_pi` (part_000 lines 23-31): `stepSize = 1.0f/numSteps`, the
accumulation loop, and the final float multiplication `sum*stepSize`. -/
def float_pi (numSteps : ℕ) : FP :=
  FP.mul b32
    ((List.range numSteps).foldl (float_pi_body (float_pi_step numSteps)) (.num 0 0))
    (float_pi_step numSteps)

/-- The loop body of `double_pi` (part_000 lines 36-39): every operation in
`double` (`pow(x,2)` modelled as the correctly rounded double square). -/
def double_pi_body (stepSize : FP) (sum : FP) (i : ℕ) : FP :=
  let x := FP.mul b64 (FP.add b64 (dyadic b64 (i : ℤ) 0) (.num 1 (-1))) stepSize
  FP.add b64 sum (FP.div b64 (.num 1 2) (FP.add b64 (.num 1 0) (FP.mul b64 x x)))

/-- `double_pi` (part_000 lines 33-41). -/
def double_pi (numSteps : ℕ) : FP :=
  let stepSize := FP.div b64 (.num 1 0) (dyadic b64 (numSteps : ℤ) 0)
  FP.mul b64 ((List.range numSteps).foldl (double_pi_body stepSize) (.num 0 0)) stepSize

/-- Decidable equality for `Except` results. -/
instance {ε α : Type} [DecidableEq ε] [DecidableEq α] : DecidableEq (Except ε α) := fun a b =>
  match a, b with
  | .ok x, .ok y => decidable_of_iff (x = y) (by simp)
  | .error e, .error f => decidable_of_iff (e = f) (by simp)
  | .ok _, .error _ => isFalse (by simp)
  | .error _, .ok _ => isFalse (by simp)

/-- The midpoint `x_i = (i + 0.5) × step_size` of the specification's
algorithm, computed in float32. -/
def xAt32 (step : FP) (i : ℕ) : FP := FP.mul b32 (FP.add b32 (i2f i) (.num 1 (-1))) step

/-- The term `4 / (1 + x²)` computed entirely in float32, as the specification
describes the float32 backend. -/
def f32Term (x : FP) : FP :=
  FP.div b32 (.num 1 2) (FP.add b32 (.num 1 0) (FP.mul b32 x x))

/-- The accumulation `sum += term` with every operation in float32. -/
def allF32Sum (step : FP) : ℕ → FP
  | 0 => .num 0 0
  | n+1 => FP.add b32 (allF32Sum step n) (f32Term (xAt32 step n))

/-- The specification's float32 backend: the integration algorithm with every
operation — step size, midpoints, squaring, the term division, the
accumulation and the final multiplication — performed in single precision. -/
def allFloat32Pi (n : ℕ) : FP :=
  FP.mul b32 (allF32Sum (float_pi_step n) n) (float_pi_step n)

/-- The term `4 / (1 + x²)` computed in float64 (the widened `Math.pow` route
actually taken by `float_pi`). -/
def f64Term (x : FP) : FP :=
  FP.div b64 (.num 1 2) (FP.add b64 (.num 1 0) (FP.mul b64 x x))

/-- The accumulation of `float_pi` as it actually executes: the double term is
added to the (exactly widened) float sum in double precision and the result is
narrowed back to float32. -/
def mixedSum (step : FP) : ℕ → FP
  | 0 => .num 0 0
  | n+1 => narrow32 (FP.add b64 (mixedSum step n) (f64Term (xAt32 step n)))

/-- The mixed-precision description of `float_pi`: float32 step size and
midpoints, float64 term computation and accumulation (narrowed to float32
after each addition), float32 final multiplication. -/
def mixedPi (n : ℕ) : FP :=
  FP.mul b32 (mixedSum (float_pi_step n) n) (float_pi_step n)

/-- Division of `BigDec` values rounded to `p` significant digits under `mode`
(the total value-level function underlying `bdDivide` for `p ≥ 1` and a
nonzero divisor). -/
def bdDivP (p : ℕ) (mode : RMode) (a b : BigDec) : BigDec :=
  roundRatSig p mode ((if (a.m < 0) = (b.m < 0) then 1 else -1) * a.m.natAbs)
    b.m.natAbs (a.k - b.k)

/-- The specification's decimal step size: `1 / step_count` rounded to `p`
significant digits under `mode`. -/
def specDecStep (mode : RMode) (p n : ℕ) : BigDec := bdDivP p mode ⟨1, 0⟩ ⟨(n : ℤ), 0⟩

/-- The specification's decimal midpoint `x_i = (i + 0.5) × step_size`
(exact). -/
def specDecX (st : BigDec) (i : ℕ) : BigDec := bdMul (bdAdd ⟨(i : ℤ), 0⟩ ⟨5, -1⟩) st

/-- The specification's decimal term `4 / (1 + x_i²)`: the square and the
increment are exact, the division is rounded to `p` significant digits under
`mode`. -/
def specDecTerm (mode : RMode) (p : ℕ) (st : BigDec) (i : ℕ) : BigDec :=
  bdDivP p mode ⟨4, 0⟩ (bdAdd ⟨1, 0⟩ (bdMul (specDecX st i) (specDecX st i)))

/-- The specification's decimal accumulation `sum += term` (exact additions). -/
def specDecSum (mode : RMode) (p : ℕ) (st : BigDec) : ℕ → BigDec
  | 0 => ⟨0, 0⟩
  | i+1 => bdAdd (specDecSum mode p st i) (specDecTerm mode p st i)

/-- The specification's decimal backend (§4.2 of the spec), parameterized by
the rounding mode used at the two division sites. -/
def specDecimalPi (mode : RMode) (p n : ℕ) : BigDec :=
  bdMul (specDecSum mode p (specDecStep mode p n) n) (specDecStep mode p n)

/-- The numeric value of a bit character (for strings of `'0'`/`'1'`). -/
def bitVal (c : Char) : ℕ := if c = '1' then 1 else 0

/-- A bit string read as an unsigned base-2 integer (the specification's
"exponent field … interpreted as unsigned 8-bit integer"). -/
def specExpVal (l : List Char) : ℕ := l.foldl (fun a c => 2 * a + bitVal c) 0

/-- The specification's mantissa value `1 + Σ_{i=1..23} bit_i × 2^(-i)` of a
32-character bit string (bits 9-31). -/
def mantQ (s : List Char) : ℚ :=
  1 + ∑ i ∈ Finset.range 23, (bitVal ((s.drop 9).getD i '0') : ℚ) * (1 / 2) ^ (i + 1)

/-- The sign factor that `exactDecimal` actually applies: read from the
character at position 9 (the first mantissa bit), `'0'` meaning positive. -/
def specSign9 (s : List Char) : ℚ := if (s.drop 9).headD '0' = '0' then 1 else -1

/-- The exact decimal representation of `2^e` (for stating what `bdPow2`
should return): `2^e` itself for `e ≥ 0`, and `5^(-e) × 10^e` for `e < 0`. -/
def twoPowBD (e : ℤ) : BigDec :=
  if 0 ≤ e then ⟨((2 ^ e.toNat : ℕ) : ℤ), 0⟩ else ⟨((5 ^ (-e).toNat : ℕ) : ℤ), e⟩

def bitsOne : List Char := "00111111100000000000000000000000".toList

def bitsNegTwo : List Char := "11000000000000000000000000000000".toList

def bitsPosTwo : List Char := "01000000000000000000000000000000".toList

def bitsFive : List Char := "00111111100000000000000000000005".toList

def bitsInf : List Char := "01111111100000000000000000000000".toList

def bitsNegMinNorm : List Char := "10000000100000000000000000000000".toList

def bitsSubn : List Char := "00000000000000000000000000000000".toList

lemma qpow_toNat (b : ℚ) (t : ℤ) (h : 0 ≤ t) : b ^ t.toNat = b ^ t := by
  rw [← zpow_natCast, Int.toNat_of_nonneg h]

lemma toRat_mk (m k : ℤ) : (BigDec.mk m k).toRat = (m : ℚ) * 10 ^ k := rfl

lemma toRat_bdMul (a b : BigDec) : (bdMul a b).toRat = a.toRat * b.toRat := by
  simp only [bdMul, BigDec.toRat]
  push_cast
  rw [zpow_add₀ (by norm_num : (10 : ℚ) ≠ 0)]
  ring

lemma toRat_bdAdd (a b : BigDec) : (bdAdd a b).toRat = a.toRat + b.toRat := by
  have h10 : (10 : ℚ) ≠ 0 := by norm_num
  simp only [bdAdd, BigDec.toRat]
  split
  · next h =>
      push_cast
      rw [qpow_toNat 10 (b.k - a.k) (by omega), add_mul, mul_assoc, ← zpow_add₀ h10,
        sub_add_cancel]
  · next h =>
      push_cast
      rw [qpow_toNat 10 (a.k - b.k) (by omega), add_mul, mul_assoc, ← zpow_add₀ h10,
        sub_add_cancel]

lemma veq_toRat {a b : BigDec} (h : a.veq b = true) : a.toRat = b.toRat := by
  simp only [BigDec.veq, beq_iff_eq] at h
  have h10 : (10 : ℚ) ≠ 0 := by norm_num
  have ha := congrArg (fun z : ℤ => (z : ℚ)) h
  push_cast at ha
  rw [qpow_toNat 10 (a.k - min a.k b.k) (by omega),
      qpow_toNat 10 (b.k - min a.k b.k) (by omega)] at ha
  have hb := congrArg (fun x => x * (10 : ℚ) ^ (min a.k b.k)) ha
  simp only at hb
  rw [mul_assoc, mul_assoc, ← zpow_add₀ h10, ← zpow_add₀ h10, sub_add_cancel,
    sub_add_cancel] at hb
  simpa [BigDec.toRat] using hb

lemma toRat_twoPowBD (e : ℤ) : (twoPowBD e).toRat = 2 ^ e := by
  by_cases h : 0 ≤ e
  · simp only [twoPowBD, if_pos h, BigDec.toRat]
    push_cast
    rw [qpow_toNat 2 e h]
    simp
  · simp only [twoPowBD, if_neg h, BigDec.toRat]
    push_cast
    have he : e = -((-e).toNat : ℤ) := by omega
    rw [he]
    generalize (-e).toNat = n
    rw [zpow_neg, zpow_neg, zpow_natCast, zpow_natCast]
    rw [show ((10 : ℚ)) = 2 * 5 by norm_num, mul_pow]
    field_simp
    ring

lemma foldl_range_succ {α : Type} (f : α → ℕ → α) (a : α) (n : ℕ) :
    (List.range (n + 1)).foldl f a = f ((List.range n).foldl f a) n := by
  rw [List.range_succ, List.foldl_append]
  rfl

lemma float_sum_eq_mixedSum (step : FP) (n : ℕ) :
    (List.range n).foldl (float_pi_body step) (.num 0 0) = mixedSum step n := by
  induction n with
  | zero => rfl
  | succ n ih =>
      rw [foldl_range_succ, ih]
      rfl

lemma bdDivide_ok (p : ℕ) (mode : RMode) (a b : BigDec) (hp : p ≠ 0) (hb : b.m ≠ 0) :
    bdDivide p mode a b = .ok (bdDivP p mode a b) := by
  simp only [bdDivide, bdDivP, if_neg hb, if_neg hp]

lemma toRat_pos {a : BigDec} (h : 0 < a.m) : 0 < a.toRat := by
  simp only [BigDec.toRat]
  positivity

lemma one_add_sq_m_pos (x : BigDec) : 0 < (bdAdd ⟨1, 0⟩ (bdMul x x)).m := by
  simp only [bdAdd, bdMul]
  split
  · simp only
    have : (0 : ℤ) ≤ x.m * x.m := mul_self_nonneg x.m
    positivity
  · simp only
    have h1 : (0 : ℤ) < 1 * ((10 ^ ((0 : ℤ) - (x.k + x.k)).toNat : ℕ) : ℤ) := by positivity
    have : (0 : ℤ) ≤ x.m * x.m := mul_self_nonneg x.m
    omega

lemma api_loop_eq (p : ℕ) (hp : p ≠ 0) (st : BigDec) (n : ℕ) :
    (List.range n).foldl (api_body p st) (.ok ⟨0, 0⟩) = .ok (specDecSum .halfUp p st n) := by
  induction n with
  | zero => rfl
  | succ n ih =>
      rw [foldl_range_succ, ih]
      simp only [api_body, specDecSum, specDecTerm, specDecX]
      rw [bdDivide_ok _ _ _ _ hp (by exact (one_add_sq_m_pos _).ne.symm)]

lemma api_eq_spec (n p : ℕ) (hn : 0 < n) (hp : 0 < p) :
    arbitrary_precision_pi n p = .ok (specDecimalPi .halfUp p n) := by
  have hb : (BigDec.mk (n : ℤ) 0).m ≠ 0 := by
    simp only
    exact_mod_cast hn.ne.symm
  simp only [arbitrary_precision_pi, bdDivide_ok p .halfUp ⟨1, 0⟩ ⟨(n : ℤ), 0⟩ hp.ne.symm hb,
    api_loop_eq p hp.ne.symm, specDecimalPi, specDecStep]

lemma toRat_specDecSum (mode : RMode) (p : ℕ) (st : BigDec) (n : ℕ) :
    (specDecSum mode p st n).toRat = ∑ i ∈ Finset.range n, (specDecTerm mode p st i).toRat := by
  induction n with
  | zero => simp [specDecSum, BigDec.toRat]
  | succ n ih => rw [specDecSum, toRat_bdAdd, ih, Finset.sum_range_succ]

lemma toRat_bdHalfPow (j : ℕ) : (bdHalfPow j).toRat = (1 / 2 : ℚ) ^ j := by
  simp only [bdHalfPow, BigDec.toRat]
  push_cast
  rw [zpow_neg, zpow_natCast]
  rw [show ((10 : ℚ)) = 2 * 5 by norm_num, mul_pow]
  have h2 : ((2 : ℚ) ^ j) ≠ 0 := by positivity
  have h5 : ((5 : ℚ) ^ j) ≠ 0 := by positivity
  field_simp
  ring

lemma parseBinLoop_ok (l : List Char) (acc : ℕ) (h : ∀ c ∈ l, c = '0' ∨ c = '1') :
    parseBinLoop l acc = .ok (l.foldl (fun a c => 2 * a + bitVal c) acc) := by
  induction l generalizing acc with
  | nil => rfl
  | cons c cs ih =>
      rcases h c (by simp) with hc | hc <;>
        simp only [parseBinLoop, parseBinDigit, hc, List.foldl_cons, if_pos, if_neg, bitVal,
          reduceIte, reduceCtorEq] <;>
        exact ih _ (fun x hx => h x (by simp [hx]))

lemma parseIntBin_ok (l : List Char) (hne : l ≠ []) (h : ∀ c ∈ l, c = '0' ∨ c = '1') :
    parseIntBin l = .ok ((specExpVal l : ℤ)) := by
  match l with
  | [] => exact absurd rfl hne
  | c :: cs =>
      have hc := h c (by simp)
      have hc1 : c ≠ '-' := by rcases hc with h | h <;> simp [h]
      have hc2 : c ≠ '+' := by rcases hc with h | h <;> simp [h]
      simp only [parseIntBin, if_neg hc1, if_neg hc2, parseBinLoop_ok _ _ h, specExpVal,
        intOfParsed, cond_false]

lemma mantissaLoop_ok (l : List Char) (i : ℕ) (acc : BigDec)
    (h : ∀ c ∈ l, c.isDigit = true) :
    ∃ b, mantissaLoop l i acc = .ok b ∧
      b.toRat = acc.toRat +
        ∑ j ∈ Finset.range l.length, ((l.getD j '0').toNat - 48 : ℕ) * (1 / 2 : ℚ) ^ (i + j + 1) := by
  induction l generalizing i acc with
  | nil => exact ⟨acc, rfl, by simp⟩
  | cons c cs ih =>
      have hd : parseDigit c = some (c.toNat - 48) := by
        simp [parseDigit, h c (by simp)]
      obtain ⟨b, hb, hv⟩ := ih (i + 1)
        (bdAdd acc (bdMul ⟨((c.toNat - 48 : ℕ) : ℤ), 0⟩ (bdHalfPow (i + 1))))
        (fun x hx => h x (by simp [hx]))
      refine ⟨b, by simp only [mantissaLoop, hd, hb], ?_⟩
      rw [hv, toRat_bdAdd, toRat_bdMul, toRat_bdHalfPow]
      rw [List.length_cons, Finset.sum_range_succ']
      simp only [List.getD_cons_succ, List.getD_cons_zero, toRat_mk]
      have hexp : ∀ j : ℕ, i + 1 + j + 1 = i + (j + 1) + 1 := by omega
      rw [Finset.sum_congr rfl (fun j _ => by rw [hexp j])]
      push_cast
      ring

lemma mantissaLoop_isOk (l : List Char) (i : ℕ) (acc : BigDec) :
    (mantissaLoop l i acc).isOk = true ↔ ∀ c ∈ l, c.isDigit = true := by
  induction l generalizing i acc with
  | nil => simp [mantissaLoop, Except.isOk, Except.toBool]
  | cons c cs ih =>
      by_cases hc : c.isDigit
      · have hd : parseDigit c = some (c.toNat - 48) := by simp [parseDigit, hc]
        simp only [mantissaLoop, hd, ih, List.mem_cons]
        constructor
        · rintro hall x (rfl | hx)
          · exact hc
          · exact hall x hx
        · intro hall x hx
          exact hall x (Or.inr hx)
      · have hd : parseDigit c = none := by simp [parseDigit, hc]
        simp only [mantissaLoop, hd]
        constructor
        · intro habs
          simp [Except.isOk, Except.toBool] at habs
        · intro hall
          exact absurd (hall c (by simp)) hc

lemma mantissaLoop_error (l : List Char) (i : ℕ) (acc : BigDec) (e : JavaError)
    (h : mantissaLoop l i acc = .error e) : e = .numberFormat := by
  induction l generalizing i acc with
  | nil => exact absurd h (by simp [mantissaLoop])
  | cons c cs ih =>
      rcases hd : parseDigit c with _ | d
      · simp only [mantissaLoop, hd] at h
        exact ((Except.error.injEq _ _).mp h).symm
      · simp only [mantissaLoop, hd] at h
        exact ih _ _ h

lemma parseBinLoop_isOk (l : List Char) (acc : ℕ) :
    (parseBinLoop l acc).isOk = true ↔ ∀ c ∈ l, c = '0' ∨ c = '1' := by
  induction l generalizing acc with
  | nil => simp [parseBinLoop, Except.isOk, Except.toBool]
  | cons c cs ih =>
      by_cases hc : c = '0' ∨ c = '1'
      · have hd : ∃ d, parseBinDigit c = some d := by
          rcases hc with h | h
          · exact ⟨0, by simp [parseBinDigit, h]⟩
          · exact ⟨1, by simp [parseBinDigit, h]⟩
        obtain ⟨d, hd⟩ := hd
        simp only [parseBinLoop, hd, ih, List.mem_cons]
        constructor
        · rintro hall x (rfl | hx)
          · exact hc
          · exact hall x hx
        · intro hall x hx
          exact hall x (Or.inr hx)
      · have hd : parseBinDigit c = none := by
          simp only [parseBinDigit]
          rw [if_neg, if_neg] <;> intro h <;> exact hc (by simp [h])
        simp only [parseBinLoop, hd]
        constructor
        · intro habs
          simp [Except.isOk, Except.toBool] at habs
        · intro hall
          exact absurd (hall c (by simp)) hc

lemma parseBinLoop_error (l : List Char) (acc : ℕ) (e : JavaError)
    (h : parseBinLoop l acc = .error e) : e = .numberFormat := by
  induction l generalizing acc with
  | nil => exact absurd h (by simp [parseBinLoop])
  | cons c cs ih =>
      rcases hd : parseBinDigit c with _ | d
      · simp only [parseBinLoop, hd] at h
        exact ((Except.error.injEq _ _).mp h).symm
      · simp only [parseBinLoop, hd] at h
        exact ih _ h

lemma isOk_map {ε α β : Type} (x : Except ε α) (f : α → β) : (x.map f).isOk = x.isOk := by
  cases x <;> rfl

lemma isOk_intOfParsed (sign : Bool) (x : Except JavaError ℕ) :
    (intOfParsed sign x).isOk = x.isOk := by
  cases x <;> rfl

lemma intOfParsed_error (sign : Bool) (x : Except JavaError ℕ) (e : JavaError)
    (h : intOfParsed sign x = .error e) : x = .error e := by
  cases x with
  | error f => simpa [intOfParsed] using h
  | ok v => simp [intOfParsed] at h

lemma parseIntBin_error (l : List Char) (e : JavaError) (h : parseIntBin l = .error e) :
    e = .numberFormat := by
  match l with
  | [] =>
      simp only [parseIntBin] at h
      exact ((Except.error.injEq _ _).mp h).symm
  | c :: cs =>
      simp only [parseIntBin] at h
      split at h
      · split at h
        · exact ((Except.error.injEq _ _).mp h).symm
        · exact parseBinLoop_error _ _ _ (intOfParsed_error _ _ _ h)
      · split at h
        · split at h
          · exact ((Except.error.injEq _ _).mp h).symm
          · exact parseBinLoop_error _ _ _ (intOfParsed_error _ _ _ h)
        · exact parseBinLoop_error _ _ _ (intOfParsed_error _ _ _ h)

lemma parseIntBin_isOk (l : List Char) (hne2 : l.tail ≠ []) :
    (parseIntBin l).isOk = true ↔
      ((∀ c ∈ l, c = '0' ∨ c = '1') ∨
       ((l.headD ' ' = '-' ∨ l.headD ' ' = '+') ∧ ∀ c ∈ l.tail, c = '0' ∨ c = '1')) := by
  match l with
  | [] => exact absurd rfl hne2
  | c :: cs =>
      simp only [List.headD_cons, List.tail_cons] at hne2 ⊢
      by_cases h1 : c = '-'
      · subst h1
        rw [parseIntBin, if_pos rfl, if_neg hne2, isOk_intOfParsed, parseBinLoop_isOk]
        constructor
        · intro hall
          exact Or.inr ⟨Or.inl rfl, hall⟩
        · rintro (hall | ⟨_, hall⟩)
          · rcases hall '-' (by simp) with h | h <;> simp at h
          · exact hall
      · by_cases h2 : c = '+'
        · subst h2
          rw [parseIntBin, if_neg (by decide), if_pos rfl, if_neg hne2, isOk_intOfParsed,
            parseBinLoop_isOk]
          constructor
          · intro hall
            exact Or.inr ⟨Or.inr rfl, hall⟩
          · rintro (hall | ⟨_, hall⟩)
            · rcases hall '+' (by simp) with h | h <;> simp at h
            · exact hall
        · rw [parseIntBin, if_neg h1, if_neg h2, isOk_intOfParsed, parseBinLoop_isOk]
          constructor
          · intro hall
            exact Or.inl hall
          · rintro (hall | ⟨(hs | hs), hall⟩)
            · exact hall
            · exact absurd hs h1
            · exact absurd hs h2

lemma toRat_bdPow2_exact (e : ℤ) (h1 : -71 ≤ e) (h2 : e ≤ 128) : (bdPow2 e).toRat = 2 ^ e := by
  interval_cases e <;> exact (veq_toRat (by decide)).trans (toRat_twoPowBD _)

lemma exactDecimal_error (s : List Char) (e : JavaError) (h : exactDecimal s = .error e) :
    e = .stringIndexOutOfBounds ∨ e = .numberFormat := by
  simp only [exactDecimal] at h
  split at h
  · exact Or.inl ((Except.error.injEq _ _).mp h).symm
  · rcases hm : mantissaLoop (s.drop 9) 0 ⟨1, 0⟩ with f | b <;> rw [hm] at h
    · exact Or.inr (((Except.error.injEq _ _).mp h).symm ▸ mantissaLoop_error _ _ _ _ hm)
    · rcases hp : parseIntBin ((s.drop 1).take 8) with f | v <;> rw [hp] at h
      · exact Or.inr (((Except.error.injEq _ _).mp h).symm ▸ parseIntBin_error _ _ hp)
      · rcases hf : s.drop 9 with _ | ⟨c, cs⟩ <;> rw [hf] at h
        · exact Or.inl ((Except.error.injEq _ _).mp h).symm
        · exact absurd h (by simp)

lemma exactDecimal_isOk (s : List Char) :
    (exactDecimal s).isOk = true ↔
      (9 < s.length ∧ (∀ c ∈ s.drop 9, c.isDigit = true) ∧
        ((∀ c ∈ (s.drop 1).take 8, c = '0' ∨ c = '1') ∨
         ((((s.drop 1).take 8).headD ' ' = '-' ∨ ((s.drop 1).take 8).headD ' ' = '+') ∧
          ∀ c ∈ ((s.drop 1).take 8).tail, c = '0' ∨ c = '1'))) := by
  by_cases hl : s.length < 9
  · exact iff_of_false (by simp [exactDecimal, if_pos hl, Except.isOk, Except.toBool])
      (fun h => by omega)
  · have htl : ((s.drop 1).take 8).tail ≠ [] := by
      have h8 : ((s.drop 1).take 8).length = 8 := by
        simp only [List.length_take, List.length_drop]
        omega
      intro h
      have := congrArg List.length h
      rw [List.length_tail, h8] at this
      simp at this
    simp only [exactDecimal, if_neg hl]
    rcases hm : mantissaLoop (s.drop 9) 0 ⟨1, 0⟩ with f | b
    · refine iff_of_false (by simp [Except.isOk, Except.toBool]) (fun h => ?_)
      have := (mantissaLoop_isOk (s.drop 9) 0 ⟨1, 0⟩).mpr h.2.1
      rw [hm] at this
      simp [Except.isOk, Except.toBool] at this
    · rcases hp : parseIntBin ((s.drop 1).take 8) with f | v
      · refine iff_of_false (by simp [Except.isOk, Except.toBool]) (fun h => ?_)
        have := (parseIntBin_isOk ((s.drop 1).take 8) htl).mpr h.2.2
        rw [hp] at this
        simp [Except.isOk, Except.toBool] at this
      · rcases hf : s.drop 9 with _ | ⟨c, cs⟩
        · refine iff_of_false (by simp [Except.isOk, Except.toBool]) (fun h => ?_)
          have h9 := congrArg List.length hf
          rw [List.length_drop] at h9
          simp at h9
          omega
        · refine iff_of_true rfl ⟨?_, ?_, ?_⟩
          · have h9 := congrArg List.length hf
            rw [List.length_drop] at h9
            simp [List.length_cons] at h9
            omega
          · exact hf ▸ ((mantissaLoop_isOk (s.drop 9) 0 ⟨1, 0⟩).mp (by rw [hm]; rfl))
          · exact (parseIntBin_isOk ((s.drop 1).take 8) htl).mp (by rw [hp]; rfl)

lemma specExpVal_foldl_lt (l : List Char) :
    ∀ acc, l.foldl (fun a c => 2 * a + bitVal c) acc < (acc + 1) * 2 ^ l.length := by
  induction l with
  | nil => intro acc; simp
  | cons c cs ih =>
      intro acc
      have hb : bitVal c ≤ 1 := by
        simp only [bitVal]
        split <;> omega
      calc (c :: cs).foldl (fun a c => 2 * a + bitVal c) acc
          = cs.foldl (fun a c => 2 * a + bitVal c) (2 * acc + bitVal c) := rfl
        _ < (2 * acc + bitVal c + 1) * 2 ^ cs.length := ih _
        _ ≤ (2 * (acc + 1)) * 2 ^ cs.length := by
            have : 2 * acc + bitVal c + 1 ≤ 2 * (acc + 1) := by omega
            exact Nat.mul_le_mul_right _ this
        _ = (acc + 1) * 2 ^ (c :: cs).length := by
            rw [List.length_cons]
            ring

lemma specExpVal_lt (l : List Char) : specExpVal l < 2 ^ l.length := by
  simpa [specExpVal] using specExpVal_foldl_lt l 0

lemma exactDecimal_eval (s : List Char) (hlen : s.length = 32)
    (hbin : ∀ c ∈ s, c = '0' ∨ c = '1') :
    (exactDecimal s).map BigDec.toRat =
      .ok ((1 + ∑ j ∈ Finset.range 23, (bitVal ((s.drop 9).getD j '0') : ℚ) * (1 / 2) ^ (j + 1))
        * (bdPow2 ((specExpVal ((s.drop 1).take 8) : ℤ) - 127)).toRat * specSign9 s) := by
  have h9 : ¬ s.length < 9 := by omega
  have hfd : ∀ c ∈ s.drop 9, c.isDigit = true := fun c hc => by
    rcases hbin c (List.mem_of_mem_drop hc) with h | h <;> simp [h]
  have hlen23 : (s.drop 9).length = 23 := by
    rw [List.length_drop, hlen]
  obtain ⟨b, hb, hbv⟩ := mantissaLoop_ok (s.drop 9) 0 ⟨1, 0⟩ hfd
  have hexp8 : parseIntBin ((s.drop 1).take 8) = .ok ((specExpVal ((s.drop 1).take 8) : ℤ)) := by
    refine parseIntBin_ok _ ?_ ?_
    · intro h
      have := congrArg List.length h
      simp only [List.length_take, List.length_drop, hlen, List.length_nil] at this
      omega
    · intro c hc
      exact hbin c (List.mem_of_mem_drop (List.mem_of_mem_take hc))
  simp only [exactDecimal, if_neg h9, hb, hexp8]
  rcases hf : s.drop 9 with _ | ⟨c, cs⟩
  · rw [hf] at hlen23
    simp at hlen23
  · simp only [Except.map]
    rw [← hf, toRat_bdMul, toRat_bdMul, hbv, hlen23]
    have hsum : ∀ j ∈ Finset.range 23,
        (((s.drop 9).getD j '0').toNat - 48 : ℕ) * ((1 / 2 : ℚ)) ^ (0 + j + 1)
          = (bitVal ((s.drop 9).getD j '0') : ℚ) * (1 / 2) ^ (j + 1) := by
      intro j hj
      have hjl : j < (s.drop 9).length := by
        rw [hlen23]
        exact Finset.mem_range.mp hj
      have hmem : (s.drop 9).getD j '0' ∈ s.drop 9 := by
        rw [List.getD_eq_getElem _ _ hjl]
        exact List.getElem_mem _
      rcases hbin _ (List.mem_of_mem_drop hmem) with h | h
      · rw [h, show (('0'.toNat - 48 : ℕ)) = 0 from rfl]
        simp [bitVal]
      · rw [h, show (('1'.toNat - 48 : ℕ)) = 1 from rfl]
        simp [bitVal]
    rw [Finset.sum_congr rfl hsum]
    have hsign : (BigDec.mk (if c = '0' then 1 else -1) 0).toRat = specSign9 s := by
      simp only [specSign9, hf, List.headD_cons]
      by_cases hc : c = '0' <;> simp [hc, toRat_mk]
    rw [hsign]
    simp [toRat_mk]

lemma toRat_pow10_scale (n : ℕ) (m : ℤ) : BigDec.toRat ⟨m * 10 ^ n, -(n : ℤ)⟩ = m := by
  rw [toRat_mk]
  push_cast
  rw [mul_assoc, ← zpow_natCast (10 : ℚ) n, ← zpow_add₀ (by norm_num : (10 : ℚ) ≠ 0)]
  simp

/-- C1 (corrected): for a 32-character bit string of `'0'`/`'1'` whose unbiased
exponent `specExpVal - 127` is at least `-71`, `exactDecimal` returns exactly
`sign × (1 + Σ bit_i × 2^(-i)) × 2^(exponent - 127)` — but the sign factor is
read from the first mantissa bit (position 9), not from the sign bit
(position 0), and for unbiased exponents below `-71` the factor `2^e` is
rounded to 50 significant digits (half-even) and the result is no longer
exact. -/
theorem c1_exact_value_high_exponent (s : List Char) (hlen : s.length = 32)
    (hbin : ∀ c ∈ s, c = '0' ∨ c = '1')
    (hexp : -71 ≤ (specExpVal ((s.drop 1).take 8) : ℤ) - 127) :
    (exactDecimal s).map BigDec.toRat
      = .ok (specSign9 s * mantQ s * 2 ^ ((specExpVal ((s.drop 1).take 8) : ℤ) - 127)) := by
  rw [exactDecimal_eval s hlen hbin]
  have hub : (specExpVal ((s.drop 1).take 8) : ℤ) - 127 ≤ 128 := by
    have hv := specExpVal_lt ((s.drop 1).take 8)
    have hl8 : ((s.drop 1).take 8).length = 8 := by
      simp only [List.length_take, List.length_drop, hlen]
      omega
    rw [hl8, show (2 : ℕ) ^ 8 = 256 from by norm_num] at hv
    omega
  rw [toRat_bdPow2_exact _ hexp hub]
  simp only [mantQ]
  exact congrArg Except.ok (by ring)

/-- C1 witness: the bit string of `1.0f` satisfies the hypotheses and decodes
to `1`. -/
theorem c1_witness :
    bitsOne.length = 32 ∧ (∀ c ∈ bitsOne, c = '0' ∨ c = '1') ∧
      (-71 ≤ (specExpVal ((bitsOne.drop 1).take 8) : ℤ) - 127) ∧
      (exactDecimal bitsOne).map BigDec.toRat
        = .ok (specSign9 bitsOne * mantQ bitsOne *
            2 ^ ((specExpVal ((bitsOne.drop 1).take 8) : ℤ) - 127)) :=
  ⟨by decide, by decide, by decide,
    c1_exact_value_high_exponent bitsOne (by decide) (by decide) (by decide)⟩

/-- C1 counterexample: on the bit string with sign bit 1 and unbiased exponent
`-126` (the negated smallest normal number, exact value `-2^(-126)`),
`exactDecimal` returns a positive value different from `-2^(-126)` — the
claimed exact result `-2^(-126)` (the decimal `-5^126 × 10^(-126)`) is not
returned: the sign is read from a mantissa bit and `2^(-126)` was rounded to
50 significant digits. -/
theorem c1_counterexample :
    exactDecimal bitsNegMinNorm
        = .ok ⟨rndInt .halfEven ((5 : ℤ) ^ 126) (10 ^ 39) * 10 ^ 23, -110⟩ ∧
      BigDec.veq ⟨rndInt .halfEven ((5 : ℤ) ^ 126) (10 ^ 39) * 10 ^ 23, -110⟩
          ⟨-(5 ^ 126), -126⟩ = false ∧
      0 < rndInt .halfEven ((5 : ℤ) ^ 126) (10 ^ 39) * 10 ^ 23 ∧
      BigDec.toRat ⟨-(5 ^ 126), -126⟩ = -((2 : ℚ) ^ (-126 : ℤ)) := by
  refine ⟨by decide, by decide, by decide, ?_⟩
  have h := toRat_twoPowBD (-126)
  rw [show twoPowBD (-126) = ⟨((5 ^ 126 : ℕ) : ℤ), -126⟩ from by decide] at h
  rw [toRat_mk] at h ⊢
  push_cast at h ⊢
  rw [neg_mul, h]

/-- C2 (code bug): the bit string of `1.0f` does decode to exactly `1`, but
the bit string of `-2.0f` decodes to `+2`, not `-2`: the sign is taken from
`fraction.charAt(0)` (the first mantissa bit) instead of the sign bit. -/
theorem c2_known_values :
    exactDecimal bitsOne = .ok ⟨10 ^ 72, -72⟩ ∧
      exactDecimal bitsNegTwo = .ok ⟨2 * 10 ^ 72, -72⟩ ∧
      BigDec.toRat ⟨10 ^ 72, -72⟩ = 1 ∧ BigDec.toRat ⟨2 * 10 ^ 72, -72⟩ = 2 := by
  refine ⟨by decide, by decide, ?_, ?_⟩
  · have h := toRat_pow10_scale 72 1
    norm_num at h ⊢
    exact h
  · have h := toRat_pow10_scale 72 2
    norm_num at h ⊢
    exact h

/-- C3 (code bug): `exactDecimal` maps the distinct bit strings of `-2.0f` and
`+2.0f` to the same decimal value, so no re-encoding function can reproduce
both original bit strings — the round-trip property fails. -/
theorem c3_roundtrip_collision :
    exactDecimal bitsNegTwo = exactDecimal bitsPosTwo ∧ bitsNegTwo ≠ bitsPosTwo :=
  ⟨by decide, by decide⟩

/-- C4 counterexample: with the decimal backend and step count 0, the code
fails with `ArithmeticException` (division by zero), not with the
specification's `InvalidStepCount`. -/
theorem c4_counterexample :
    arbitrary_precision_pi 0 5 = .error .arithmeticException ∧
      JavaError.arithmeticException ≠ JavaError.invalidStepCount :=
  ⟨by decide, by decide⟩

/-- C4 (corrected): no backend validates the step count.  `float_pi 0` and
`double_pi 0` return NaN (the step size `1/0` is `+∞`, the empty sum is `0`,
and `0 × ∞` is NaN); `arbitrary_precision_pi 0 p` throws `ArithmeticException`
at the step-size division, for every precision `p`. -/
theorem c4_zero_steps :
    float_pi 0 = .nan ∧ double_pi 0 = .nan ∧
      ∀ p : ℕ, arbitrary_precision_pi 0 p = .error .arithmeticException := by
  refine ⟨by decide, by decide, fun p => ?_⟩
  simp [arbitrary_precision_pi, bdDivide]

/-- C5 counterexample: a 32-character input containing the character `'5'`
(not `'0'`/`'1'`) does not fail at all — `exactDecimal` returns the value
`(1 + 5×2^(-23)) × 2^0`; and the two-character input `"01"` fails with a
string-index exception, not `MalformedBitString`. -/
theorem c5_counterexample :
    exactDecimal bitsFive = .ok ⟨(10 ^ 23 + 5 ^ 24) * 10 ^ 49, -72⟩ ∧
      exactDecimal "01".toList = .error .stringIndexOutOfBounds :=
  ⟨by decide, by decide⟩

/-- C5 (corrected): `exactDecimal` succeeds exactly when the input is longer
than 9 characters, every character from position 9 on is an ASCII decimal
digit (0-9, not just 0/1), and the characters at positions 1-8 parse as a
signed binary numeral (all `'0'`/`'1'`, or a leading `'-'`/`'+'` followed by
`'0'`/`'1'`s).  The total length 32 is never enforced, the character at
position 0 is never examined, and every failure is a
`StringIndexOutOfBoundsException` or a `NumberFormatException` — the error
`MalformedBitString` does not exist in the code. -/
theorem c5_validation :
    (∀ s : List Char, (exactDecimal s).isOk = true ↔
      (9 < s.length ∧ (∀ c ∈ s.drop 9, c.isDigit = true) ∧
        ((∀ c ∈ (s.drop 1).take 8, c = '0' ∨ c = '1') ∨
         ((((s.drop 1).take 8).headD ' ' = '-' ∨ ((s.drop 1).take 8).headD ' ' = '+') ∧
          ∀ c ∈ ((s.drop 1).take 8).tail, c = '0' ∨ c = '1')))) ∧
      ∀ (s : List Char) (e : JavaError), exactDecimal s = .error e →
        e = .stringIndexOutOfBounds ∨ e = .numberFormat :=
  ⟨exactDecimal_isOk, exactDecimal_error⟩

/-- C5 witness: the characterization applied to the input `"01"`. -/
theorem c5_witness :
    exactDecimal "01".toList = .error .stringIndexOutOfBounds ∧
      (JavaError.stringIndexOutOfBounds = .stringIndexOutOfBounds ∨
        JavaError.stringIndexOutOfBounds = .numberFormat) :=
  ⟨by decide, c5_validation.2 "01".toList .stringIndexOutOfBounds (by decide)⟩

/-- C6 counterexample: already at 3 steps, `float_pi` differs from the
algorithm with every operation in float32 — the term and the accumulation of
`float_pi` are computed in double precision. -/
theorem c6_counterexample :
    FP.feq (float_pi 3) (allFloat32Pi 3) = false ∧ float_pi 3 ≠ allFloat32Pi 3 :=
  ⟨by decide, by decide⟩

/-- C6 (corrected): for every step count, `float_pi` equals the
mixed-precision algorithm: float32 step size and midpoints, float64 term
computation (`Math.pow` widens to double) and float64 accumulation narrowed to
float32 after each addition, float32 final multiplication. -/
theorem c6_mixed_precision : ∀ n : ℕ, float_pi n = mixedPi n := fun n => by
  simp only [float_pi, mixedPi, float_sum_eq_mixedSum]

/-- C7: the decimal backend equals the specification's algorithm with both
division sites — the step size `1/step_count` and each term `4/(1+x²)` —
rounded to `precision` significant digits under round-half-up; and the choice
of round-half-up is observable: with round-half-to-even the result differs
(already at 16 steps, precision 2). -/
theorem c7_decimal_rounding :
    (∀ n p : ℕ, 0 < n → 0 < p →
        arbitrary_precision_pi n p = .ok (specDecimalPi .halfUp p n)) ∧
      BigDec.veq (specDecimalPi .halfUp 2 16) (specDecimalPi .halfEven 2 16) = false :=
  ⟨fun n p hn hp => api_eq_spec n p hn hp, by decide⟩

/-- C7 witness: the equality instantiated at 3 steps, precision 4. -/
theorem c7_witness :
    0 < 3 ∧ 0 < 4 ∧ arbitrary_precision_pi 3 4 = .ok (specDecimalPi .halfUp 4 3) :=
  ⟨by decide, by decide, c7_decimal_rounding.1 3 4 (by decide) (by decide)⟩

/-- C8 counterexample: the all-ones exponent field (an IEEE-754 infinity
pattern) is not rejected: `exactDecimal` decodes it with the normalized-number
formula and returns exactly `2^128`. -/
theorem c8_counterexample :
    exactDecimal bitsInf = .ok ⟨2 ^ 128 * 10 ^ 34, -34⟩ ∧
      BigDec.toRat ⟨2 ^ 128 * 10 ^ 34, -34⟩ = 2 ^ 128 := by
  refine ⟨by decide, ?_⟩
  have h := toRat_pow10_scale 34 (2 ^ 128)
  norm_num at h ⊢
  exact h

/-- C8 (corrected): `exactDecimal` never returns `UnsupportedSubnormal` — no
special-value check exists; all-zero exponent fields (subnormal patterns) are
likewise decoded by the normalized formula and return a value. -/
theorem c8_no_rejection :
    (∀ s : List Char, exactDecimal s ≠ .error .unsupportedSubnormal) ∧
      (exactDecimal bitsSubn).isOk = true := by
  refine ⟨fun s h => ?_, by decide⟩
  rcases exactDecimal_error s _ h with h2 | h2 <;> exact JavaError.noConfusion h2

/-- C9: both operations are pure functions of their arguments — two calls with
identical inputs produce identical outputs. -/
theorem c9_deterministic : ∀ (s : List Char) (n p : ℕ),
    exactDecimal s = exactDecimal s ∧ float_pi n = float_pi n ∧
      double_pi n = double_pi n ∧
      arbitrary_precision_pi n p = arbitrary_precision_pi n p :=
  fun _ _ _ => ⟨rfl, rfl, rfl, rfl⟩

/-- C10: the decimal backend rounds only at the two division sites: the result
value is the exact (unrounded) product of the exact sum of the rounded terms
with the rounded step size; and the result can carry about twice
`precision_digits` significant digits: at 3 steps and precision 4 the result
`3.1506849` is not representable in 4 significant digits but is in 9. -/
theorem c10_exact_outside_divisions :
    (∀ n p : ℕ, 0 < n → 0 < p →
        (arbitrary_precision_pi n p).map BigDec.toRat
          = .ok ((∑ i ∈ Finset.range n,
              (specDecTerm .halfUp p (specDecStep .halfUp p n) i).toRat)
            * (specDecStep .halfUp p n).toRat)) ∧
      arbitrary_precision_pi 3 4 = .ok ⟨31506849, -7⟩ ∧
      BigDec.veq (roundDecSig 4 .halfUp ⟨31506849, -7⟩) ⟨31506849, -7⟩ = false ∧
      BigDec.veq (roundDecSig 9 .halfUp ⟨31506849, -7⟩) ⟨31506849, -7⟩ = true := by
  refine ⟨fun n p hn hp => ?_, by decide, by decide, by decide⟩
  rw [api_eq_spec n p hn hp]
  simp [Except.map, specDecimalPi, toRat_bdMul, toRat_specDecSum]

/-- C10 witness: the exactness statement instantiated at 3 steps, precision 4. -/
theorem c10_witness :
    0 < 3 ∧ 0 < 4 ∧
      (arbitrary_precision_pi 3 4).map BigDec.toRat
        = .ok ((∑ i ∈ Finset.range 3,
            (specDecTerm .halfUp 4 (specDecStep .halfUp 4 3) i).toRat)
          * (specDecStep .halfUp 4 3).toRat) :=
  ⟨by decide, by decide, c10_exact_outside_divisions.1 3 4 (by decide) (by decide)⟩

/-- C8 witness: an input that does fail, with an error other than
`UnsupportedSubnormal`. -/
theorem c8_witness : exactDecimal "001".toList ≠ .error .unsupportedSubnormal :=
  c8_no_rejection.1 "001".toList
